import Mathlib

/-!
Verification of the audio pipeline of the admission-bot voice-chat client.

The development shallowly embeds the numeric core of the repository:
the PCM codec (`src/utils/audioUtils.ts`), the averaging downsampler
(`downsampleBuffer`), the linear-interpolation worklet resampler with its
fractional carry (`residue`), the RMS voice-activity detector
(`calculateRMS`), the capture chunking state machine
(`src/hooks/audioProcessor.ts`), and the playback scheduler (`playAudio`,
`scheduleAudioChunk`, `stopAudioPlayback`).

Number representation: JavaScript numbers are IEEE float64 and sample
buffers are stored as IEEE float32 (`Float32Array`).  Arithmetic is
modelled over `ℚ` (exact; every JavaScript arithmetic operation appearing
in the embedded code paths is exact in float64 at the magnitudes involved,
except where noted).  Where the float32 storage rounding is behaviourally
relevant — the decoder `base64ToFloat32` writes `int16 / 0x7FFF` into a
`Float32Array` — it is modelled explicitly by `fl32`, round-to-nearest-even
at 24 significand bits (exponent range ignored, sound for the magnitudes
this pipeline produces).  Storing a number into an `Int16Array` follows the
ECMAScript `ToInt16` conversion: truncation toward zero, then wrap-around
modulo 2^16, modelled by `jsToInt16`.
-/

/-- JavaScript `Math.max(-1, Math.min(1, s))`: clamp a sample to [-1, 1]. -/
def clamp (s : ℚ) : ℚ := max (-1) (min 1 s)

/-- Truncation toward zero, as in the ECMAScript `ToIntegerOrInfinity`
step of the `ToInt16` conversion (written via `Int.floor` on the negated
argument so that concrete values evaluate). -/
def ratTrunc (q : ℚ) : ℤ := if 0 ≤ q then ⌊q⌋ else -⌊-q⌋

/-- Wrap an integer into the signed 16-bit range, modulo 2^16. -/
def wrap16 (n : ℤ) : ℤ := (n + 32768) % 65536 - 32768

/-- ECMAScript `ToInt16` applied to a number: truncate toward zero and
wrap modulo 2^16 into [-32768, 32767].  This is what storing into an
`Int16Array` element does. -/
def jsToInt16 (q : ℚ) : ℤ := wrap16 (ratTrunc q)

/-- JavaScript `Math.round`: round half toward positive infinity. -/
def jsRound (q : ℚ) : ℤ := ⌊q + 1/2⌋

/-- One element of `convertFloat32ToInt16` (src/utils/audioUtils.ts lines
4-9): clamp to [-1,1], scale by 0x8000 when negative and by 0x7FFF
otherwise, and store into the `Int16Array` (truncating, wrapping
conversion). -/
def floatToInt16Elem (x : ℚ) : ℤ :=
  let s := clamp x
  jsToInt16 (if s < 0 then s * 32768 else s * 32767)

/-- Embedding of `convertFloat32ToInt16` (src/utils/audioUtils.ts lines
1-11).  The `while (l--)` loop writes `buf[l]` for every index `l` of the
input buffer, each element independently of the others. -/
def convertFloat32ToInt16 (buffer : List ℚ) : List ℤ :=
  (List.range buffer.length).map (fun l => floatToInt16Elem (buffer.getD l 0))

/-- Modelled from the spec (section 4.2 PCM Codec): the claimed
`floatToInt16` contract — clamp to [-1,1], then `round(sample * 32768)` if
negative else `round(sample * 32767)`, rounding to the nearest integer
(`Math.round` semantics).  Used only to compare the spec wording with the
code. -/
def floatToInt16Claimed (x : ℚ) : ℤ :=
  let s := clamp x
  if s < 0 then jsRound (s * 32768) else jsRound (s * 32767)

/-- Clamp-scale-truncate without the modulo-2^16 wrap: the amended
element-wise description of `convertFloat32ToInt16` (the clamped, scaled
value always lies inside the int16 range, so the `ToInt16` wrap never
fires). -/
def floatToInt16Trunc (x : ℚ) : ℤ :=
  let s := clamp x
  if s < 0 then ratTrunc (s * 32768) else ratTrunc (s * 32767)

/-- Round a rational to the nearest integer, ties to even (the IEEE-754
default rounding used when a float64 value is stored into a
`Float32Array`). -/
def rne (q : ℚ) : ℤ :=
  let f := ⌊q⌋
  let r := q - f
  if r < 1/2 then f
  else if 1/2 < r then f + 1
  else if 2 ∣ f then f else f + 1

/-- Round a positive rational to the nearest IEEE float32 value:
round-to-nearest-even at 24 significand bits.  The exponent range is
ignored, which is sound for every magnitude this pipeline handles. -/
def fl32Pos (q : ℚ) : ℚ :=
  let e := Int.log 2 q
  (rne (q * 2 ^ (23 - e)) : ℚ) * 2 ^ (e - 23)

/-- Round a rational to the nearest IEEE float32 value. -/
def fl32 (q : ℚ) : ℚ :=
  if q = 0 then 0 else if 0 < q then fl32Pos q else -fl32Pos (-q)

/-- One element of the decoder `base64ToFloat32` (src/utils/audioUtils.ts
lines 69-73): `int16 < 0 ? int16 / 0x8000 : int16 / 0x7FFF`, with the
result stored into a `Float32Array` (hence rounded to float32 by `fl32`;
the float64 division itself never changes the float32 rounding decision at
these magnitudes, so a single rounding of the exact quotient is
faithful). -/
def int16ToFloat (x : ℤ) : ℚ :=
  fl32 (if x < 0 then (x : ℚ) / 32768 else (x : ℚ) / 32767)

/-- Embedding of the sample mapping of `base64ToFloat32`
(src/utils/audioUtils.ts lines 57-76).  The base64 and byte-shuffling
stages are an identity on the underlying little-endian int16 samples, so
the decoder is modelled directly on the decoded `Int16Array` contents. -/
def base64ToFloat32 (samples : List ℤ) : List ℚ :=
  samples.map int16ToFloat

/-- The round-trip property amended to what the code satisfies: the
re-encoded sequence has the same length; every element ≤ 0 and the element
32767 survive bit-exactly; and every element is reproduced within 1 (the
re-encoded value is `x` or `x - 1`). -/
def RoundTripNear (xs : List ℤ) : Prop :=
  (convertFloat32ToInt16 (base64ToFloat32 xs)).length = xs.length ∧
  ∀ i, i < xs.length →
    ((xs.getD i 0 ≤ 0 ∨ xs.getD i 0 = 32767) →
      (convertFloat32ToInt16 (base64ToFloat32 xs)).getD i 0 = xs.getD i 0) ∧
    ((convertFloat32ToInt16 (base64ToFloat32 xs)).getD i 0 = xs.getD i 0 ∨
      (convertFloat32ToInt16 (base64ToFloat32 xs)).getD i 0 = xs.getD i 0 - 1)

/-- One step of the linear-interpolation resampler (src/utils/audioUtils.ts
lines 143-151): at fractional input position `p`, interpolate between the
sample at `floor(p)` and its right neighbour, clamping the neighbour to the
last sample when `floor(p) + 1` falls outside the buffer. -/
def lerpAt (channelData : List ℚ) (p : ℚ) : ℚ :=
  let i := (⌊p⌋).toNat
  let decimal := p - ⌊p⌋
  let s0 := channelData.getD i 0
  let s1 := if i + 1 < channelData.length then channelData.getD (i + 1) 0 else s0
  s0 + (s1 - s0) * decimal

/-- Embedding of the downsampling loop of `AudioProcessor.process`
(linear-interpolation variant, src/utils/audioUtils.ts lines 133-167):
while `residue < channelData.length`, emit the interpolated sample at
position `residue` and advance the position by `rho`
(= inputSampleRate / targetSampleRate); after the loop the carry becomes
`residue - channelData.length`.  The guard `0 < rho` reflects that sample
rates are positive (the source loop would not terminate otherwise).
Returns the emitted samples and the updated carry. -/
def resampleLinear (channelData : List ℚ) (rho : ℚ) (residue : ℚ) : List ℚ × ℚ :=
  if h : 0 < rho ∧ residue < channelData.length then
    let rest := resampleLinear channelData rho (residue + rho)
    (lerpAt channelData residue :: rest.1, rest.2)
  else
    ([], residue - channelData.length)
termination_by (⌈((channelData.length : ℚ) - residue) / rho⌉).toNat
decreasing_by
  obtain ⟨h1, h2⟩ := h
  have key : ((channelData.length : ℚ) - (residue + rho)) / rho
      = ((channelData.length : ℚ) - residue) / rho - 1 := by
    field_simp
    ring
  have hpos : 0 < ⌈((channelData.length : ℚ) - residue) / rho⌉ :=
    Int.ceil_pos.mpr (div_pos (by linarith) h1)
  rw [key, Int.ceil_sub_one]
  omega

/-- Number of output samples one resampler call emits: the count of
positions `residue + k * rho` that fall inside the input buffer. -/
def outCount (len : ℕ) (rho residue : ℚ) : ℕ :=
  (⌈((len : ℚ) - residue) / rho⌉).toNat

/-- The resampler-continuity property amended to what the code satisfies:
splitting the input at an arbitrary boundary and threading the carry
produces the same number of output samples and the same final carry as one
call on the concatenation, and the output values agree at every index
whose input position does not straddle the split boundary fractionally
(i.e. at every `k` such that `floor(p) + 1 < A.length`, or `p` is an
integer, or `A.length ≤ p`, where `p = r0 + k * rho`).  At a
boundary-straddling fractional position the split run clamps the right
interpolation neighbour to the last sample of the first buffer while the
one-shot run interpolates into the second buffer, and the outputs can
differ. -/
def SplitAgrees (A B : List ℚ) (rho r0 : ℚ) : Prop :=
  ((resampleLinear A rho r0).1
      ++ (resampleLinear B rho (resampleLinear A rho r0).2).1).length
    = (resampleLinear (A ++ B) rho r0).1.length ∧
  (resampleLinear B rho (resampleLinear A rho r0).2).2
    = (resampleLinear (A ++ B) rho r0).2 ∧
  ∀ k : ℕ, k < (resampleLinear (A ++ B) rho r0).1.length →
    (⌊r0 + k * rho⌋ + 1 < (A.length : ℤ) ∨ r0 + k * rho = ⌊r0 + k * rho⌋ ∨
      (A.length : ℚ) ≤ r0 + k * rho) →
    ((resampleLinear A rho r0).1
        ++ (resampleLinear B rho (resampleLinear A rho r0).2).1).getD k 0
      = (resampleLinear (A ++ B) rho r0).1.getD k 0

/-- Embedding of the averaging loop of `downsampleBuffer`
(src/utils/audioUtils.ts lines 29-44), recursing on the number of output
slots still to fill (`remaining = newLength - offsetResult`): each
iteration averages the input samples with indices in
`[offsetBuffer, min(nextOffsetBuffer, buffer.length))` where
`nextOffsetBuffer = Math.round((offsetResult + 1) * sampleRateRatio)`.
When the window is empty the JavaScript code divides 0 by 0 and stores
NaN; this model yields 0 there (division by zero in `ℚ`), and the
safety result shows the window is never empty under the guarded rates. -/
def downsampleLoop (buffer : List ℚ) (rho : ℚ) : ℕ → ℕ → ℕ → List ℚ
  | 0, _, _ => []
  | remaining + 1, offsetResult, offsetBuffer =>
      let nextOffsetBuffer := (jsRound (((offsetResult : ℚ) + 1) * rho)).toNat
      let seg := (buffer.take nextOffsetBuffer).drop offsetBuffer
      (seg.sum / (seg.length : ℚ))
        :: downsampleLoop buffer rho remaining (offsetResult + 1) nextOffsetBuffer

/-- Embedding of `downsampleBuffer` (src/utils/audioUtils.ts lines
13-46): identity when the rates are equal, an error (`throw`) when asked
to upsample, otherwise the boxcar-averaging loop over
`newLength = Math.round(buffer.length / sampleRateRatio)` output slots. -/
def downsampleBuffer (buffer : List ℚ) (sampleRate outSampleRate : ℚ) :
    Except String (List ℚ) :=
  if outSampleRate = sampleRate then Except.ok buffer
  else if sampleRate < outSampleRate then
    Except.error "downsampling rate show be smaller than original sample rate"
  else
    let rho := sampleRate / outSampleRate
    let newLength := (jsRound ((buffer.length : ℚ) / rho)).toNat
    Except.ok (downsampleLoop buffer rho newLength 0 0)

/-- The averaging window of output slot `k` of `downsampleBuffer`: input
indices from `round(k * rho)` up to `min(round((k+1) * rho), length)`. -/
def dsWindow (buffer : List ℚ) (rho : ℚ) (k : ℕ) : List ℚ :=
  (buffer.take ((jsRound (((k : ℚ) + 1) * rho)).toNat)).drop
    ((jsRound ((k : ℚ) * rho)).toNat)

/-- Safety of the averaging downsampler: it succeeds, the output length is
`round(buffer.length * outSampleRate / sampleRate)`, and every output
element is the average of a nonempty window of input samples (so the
`accum / count` division never divides by zero). -/
def DownsampleSafe (buffer : List ℚ) (sampleRate outSampleRate : ℚ) : Prop :=
  ∃ result, downsampleBuffer buffer sampleRate outSampleRate = Except.ok result ∧
    result.length = (jsRound ((buffer.length : ℚ) * outSampleRate / sampleRate)).toNat ∧
    ∀ k, k < result.length →
      1 ≤ (dsWindow buffer (sampleRate / outSampleRate) k).length ∧
      result.getD k 0 = (dsWindow buffer (sampleRate / outSampleRate) k).sum
          / ((dsWindow buffer (sampleRate / outSampleRate) k).length : ℚ)

/-- Embedding of `calculateRMS` (src/unnamed/part_001 lines 13-19): the
root-mean-square `sqrt(sum(x_i^2) / n)` of a frame, the VAD energy. -/
noncomputable def calculateRMS (inputBuffer : List ℚ) : ℝ :=
  Real.sqrt ((((inputBuffer.map (fun x => x * x)).sum
      / (inputBuffer.length : ℚ) : ℚ) : ℝ))

/-- Embedding of `AudioProcessor.flush` (src/hooks/audioProcessor.ts lines
92-110): convert the accumulated chunk to int16 with the same
clamp-scale-store conversion as `convertFloat32ToInt16` and emit it; the
accompanying `bufferIndex = 0` reset is modelled by `pushSample` starting
a fresh accumulation buffer. -/
def flushChunk (buffer : List ℚ) : List ℤ := buffer.map floatToInt16Elem

/-- Accumulation state of the capture worklet: the partially filled chunk
buffer (`this.buffer[0..bufferIndex)`) and the chunks emitted so far. -/
structure CaptureState where
  buf : List ℚ
  chunks : List (List ℤ)

/-- One resampled sample entering the accumulation buffer
(src/hooks/audioProcessor.ts lines 74-80): write the sample, and when the
buffer reaches `chunkSize`, flush it (emit one conversion of the full
buffer and reset the accumulation index). -/
def pushSample (chunkSize : ℕ) (st : CaptureState) (s : ℚ) : CaptureState :=
  let buf1 := st.buf ++ [s]
  if chunkSize ≤ buf1.length then
    { buf := [], chunks := st.chunks ++ [flushChunk buf1] }
  else
    { buf := buf1, chunks := st.chunks }

/-- All resampled samples of one capture callback entering the
accumulation buffer in order. -/
def pushSamples (chunkSize : ℕ) (st : CaptureState) (samples : List ℚ) : CaptureState :=
  samples.foldl (pushSample chunkSize) st

/-- A sequence of capture callbacks, each contributing its resampled
samples to the persistent accumulation state. -/
def processCallbacks (chunkSize : ℕ) (st : CaptureState) (callbacks : List (List ℚ)) :
    CaptureState :=
  callbacks.foldl (pushSamples chunkSize) st

/-- The outbound chunk-size invariant: starting from an empty accumulation
buffer, every emitted chunk has length exactly `chunkSize`; the number of
emitted chunks is the total resampled length divided by `chunkSize`; the
remainder stays in the accumulation buffer (never emitted short); and a
total of exactly `N * chunkSize` samples yields exactly `N` chunks with an
empty buffer. -/
def ChunkInvariant (chunkSize : ℕ) (callbacks : List (List ℚ)) : Prop :=
  (∀ c ∈ (processCallbacks chunkSize ⟨[], []⟩ callbacks).chunks, c.length = chunkSize) ∧
  (processCallbacks chunkSize ⟨[], []⟩ callbacks).chunks.length
      = (callbacks.map List.length).sum / chunkSize ∧
  (processCallbacks chunkSize ⟨[], []⟩ callbacks).buf.length
      = (callbacks.map List.length).sum % chunkSize ∧
  ∀ N, (callbacks.map List.length).sum = N * chunkSize →
    (processCallbacks chunkSize ⟨[], []⟩ callbacks).chunks.length = N ∧
    (processCallbacks chunkSize ⟨[], []⟩ callbacks).buf = []

/-- State of the playback scheduler: the single cross-call scalar
`nextStartTime` and the set of active (scheduled or playing) source
nodes, identified by handles. -/
structure SchedulerState where
  nextStartTime : ℚ
  active : List ℕ

/-- Embedding of the scheduling core of `playAudio`
(src/hooks/useVoiceClient.ts lines 243-284): push the new source node
into the active set; if `nextStartTime` is in the past reset it to
`currentTime`; start the source at `nextStartTime`; advance
`nextStartTime` by the buffer duration.  Returns the scheduled start time
and the updated state. -/
def playAudio (now duration : ℚ) (handle : ℕ) (s : SchedulerState) :
    ℚ × SchedulerState :=
  let start := if s.nextStartTime < now then now else s.nextStartTime
  (start, { nextStartTime := start + duration, active := s.active ++ [handle] })

/-- Embedding of the scheduling core of `scheduleAudioChunk`
(src/app/hooks/useAudioRecorder.ts lines 144-195): if `nextStartTime` is
in the past reset it to `currentTime + 0.05` (the 50 ms lookahead);
start the source at `nextStartTime`; advance by the buffer duration.
Returns the scheduled start time and the new `nextStartTime`. -/
def scheduleAudioChunk (now duration nextStartTime : ℚ) : ℚ × ℚ :=
  let start := if nextStartTime < now then now + 1/20 else nextStartTime
  (start, start + duration)

/-- Embedding of `stopAudioPlayback` (src/hooks/useVoiceClient.ts lines
119-142): call `stop()` on every active source node (returned as the
second component), clear the active set, and — when the audio context is
live — reset `nextStartTime` to the current playback-clock time. -/
def stopAudioPlayback (ctxLive : Bool) (now : ℚ) (s : SchedulerState) :
    SchedulerState × List ℕ :=
  ({ nextStartTime := if ctxLive then now else s.nextStartTime, active := [] },
    s.active)

/-- Start times produced by a sequence of back-to-back `scheduleAudioChunk`
enqueues, all arriving at playback-clock time `now`, threading
`nextStartTime` between the calls. -/
def schedStarts (now : ℚ) : ℚ → List ℚ → List ℚ
  | _, [] => []
  | st, d :: ds =>
      (scheduleAudioChunk now d st).1
        :: schedStarts now (scheduleAudioChunk now d st).2 ds

/-- The gapless-scheduling property: enqueuing durations `ds` at time
`now` produces one start per unit, the first at `now + 1/20` (when the
queue was stale), and each subsequent start exactly at the previous start
plus the previous duration — no gaps and no overlap. -/
def GaplessSchedule (now st0 : ℚ) (ds : List ℚ) : Prop :=
  (schedStarts now st0 ds).length = ds.length ∧
  (ds ≠ [] → (schedStarts now st0 ds).getD 0 0 = now + 1/20) ∧
  ∀ i, i + 1 < ds.length →
    (schedStarts now st0 ds).getD (i + 1) 0
      = (schedStarts now st0 ds).getD i 0 + ds.getD i 0

/-! ### Helper lemmas: integer parts, `ToInt16`, round-to-nearest-even -/

theorem wrap16_id {n : ℤ} (h1 : -32768 ≤ n) (h2 : n ≤ 32767) : wrap16 n = n := by
  have h : (n + 32768) % 65536 = n + 32768 :=
    Int.emod_eq_of_lt (by omega) (by omega)
  unfold wrap16
  omega

theorem ratTrunc_intCast (n : ℤ) : ratTrunc (n : ℚ) = n := by
  unfold ratTrunc
  split_ifs with h
  · simp
  · rw [← Int.cast_neg, Int.floor_intCast]
    omega

theorem ratTrunc_nonneg_eq_floor {q : ℚ} (h : 0 ≤ q) : ratTrunc q = ⌊q⌋ := by
  simp [ratTrunc, h]

theorem clamp_le_one (x : ℚ) : clamp x ≤ 1 := by
  unfold clamp
  rw [max_le_iff]
  exact ⟨by norm_num, min_le_left _ _⟩

theorem neg_one_le_clamp (x : ℚ) : -1 ≤ clamp x := le_max_left _ _

theorem clamp_of_mem {x : ℚ} (h1 : -1 ≤ x) (h2 : x ≤ 1) : clamp x = x := by
  unfold clamp
  rw [min_eq_right h2, max_eq_right h1]

theorem rne_intCast (n : ℤ) : rne (n : ℚ) = n := by
  simp [rne]

theorem rne_nonneg {q : ℚ} (h : 0 ≤ q) : 0 ≤ rne q := by
  have hf : 0 ≤ ⌊q⌋ := Int.floor_nonneg.mpr h
  unfold rne
  dsimp only
  split_ifs <;> omega

theorem abs_rne_sub_le (q : ℚ) : |(rne q : ℚ) - q| ≤ 1/2 := by
  have h1 : (⌊q⌋ : ℚ) ≤ q := Int.floor_le q
  have h2 : q < ⌊q⌋ + 1 := Int.lt_floor_add_one q
  unfold rne
  dsimp only
  split_ifs with ha hb hc <;>
    · rw [abs_le]
      constructor <;> push_cast <;> linarith

/-! ### Helper lemmas: the float32 rounding model -/

theorem int_log_eq_of_bracket {q : ℚ} {e : ℤ} (h1 : 0 < q)
    (h2 : (2 : ℚ) ^ e ≤ q) (h3 : q < 2 ^ (e + 1)) : Int.log 2 q = e := by
  have hb : 1 < 2 := by norm_num
  have hle : e ≤ Int.log 2 q := by
    rw [← Int.zpow_le_iff_le_log hb h1]
    exact_mod_cast h2
  have hlt : Int.log 2 q < e + 1 := by
    rw [← Int.lt_zpow_iff_log_lt hb h1]
    exact_mod_cast h3
  omega

theorem fl32Pos_dyadic {m k : ℤ} (hm : 0 < m) (hm24 : m < 2 ^ 24) :
    fl32Pos ((m : ℚ) * 2 ^ k) = (m : ℚ) * 2 ^ k := by
  set q : ℚ := (m : ℚ) * 2 ^ k with hq_def
  have hq : 0 < q := by
    apply mul_pos
    · exact_mod_cast hm
    · exact zpow_pos (by norm_num) k
  set e := Int.log 2 q with he_def
  have he : e < k + 24 := by
    have hq24 : q < 2 ^ (k + 24) := by
      rw [zpow_add₀ (two_ne_zero) k 24]
      calc q = (m : ℚ) * 2 ^ k := rfl
        _ < (2 ^ 24 : ℚ) * 2 ^ k := by
            apply mul_lt_mul_of_pos_right _ (zpow_pos (by norm_num) k)
            exact_mod_cast hm24
        _ = 2 ^ k * 2 ^ (24 : ℤ) := by
            rw [mul_comm]
            norm_num
    have := (Int.lt_zpow_iff_log_lt (b := 2) (by norm_num) hq).mp (by exact_mod_cast hq24)
    exact this
  have hexp : (0 : ℤ) ≤ k + 23 - e := by omega
  have hy : q * 2 ^ (23 - e) = ((m * 2 ^ (k + 23 - e).toNat : ℤ) : ℚ) := by
    push_cast
    rw [hq_def, mul_assoc, ← zpow_natCast (2 : ℚ), Int.toNat_of_nonneg hexp,
      ← zpow_add₀ (two_ne_zero) k (23 - e)]
    ring_nf
  simp only [fl32Pos]
  rw [← he_def, hy, rne_intCast]
  push_cast
  rw [← zpow_natCast (2 : ℚ), Int.toNat_of_nonneg hexp, mul_assoc,
    ← zpow_add₀ (two_ne_zero)]
  rw [hq_def]
  congr 2
  omega

theorem fl32_dyadic {m k : ℤ} (hm24 : m.natAbs < 2 ^ 24) :
    fl32 ((m : ℚ) * 2 ^ k) = (m : ℚ) * 2 ^ k := by
  rcases lt_trichotomy m 0 with hneg | hzero | hpos
  · have hq : (m : ℚ) * 2 ^ k < 0 :=
      mul_neg_of_neg_of_pos (by exact_mod_cast hneg) (zpow_pos (by norm_num) k)
    rw [fl32, if_neg (by linarith), if_neg (by linarith)]
    have : -((m : ℚ) * 2 ^ k) = ((-m : ℤ) : ℚ) * 2 ^ k := by push_cast; ring
    rw [this, fl32Pos_dyadic (by omega) (by omega)]
    push_cast
    ring
  · subst hzero
    simp [fl32]
  · have hq : 0 < (m : ℚ) * 2 ^ k :=
      mul_pos (by exact_mod_cast hpos) (zpow_pos (by norm_num) k)
    rw [fl32, if_neg (by linarith), if_pos hq]
    exact fl32Pos_dyadic hpos (by omega)

theorem fl32Pos_nonneg {q : ℚ} (hq : 0 < q) : 0 ≤ fl32Pos q := by
  unfold fl32Pos
  apply mul_nonneg
  · exact_mod_cast rne_nonneg (by positivity)
  · positivity

theorem fl32Pos_err {q : ℚ} (hq : 0 < q) : |fl32Pos q - q| ≤ q / 2 ^ 24 := by
  set e := Int.log 2 q with he_def
  have h2e : (2 : ℚ) ^ e ≤ q := by
    have := Int.zpow_log_le_self (b := 2) (by norm_num) hq
    exact_mod_cast this
  have hy : q * 2 ^ (23 - e) * 2 ^ (e - 23) = q := by
    rw [mul_assoc, ← zpow_add₀ (two_ne_zero)]
    norm_num
  have hdiff : fl32Pos q - q = ((rne (q * 2 ^ (23 - e)) : ℚ) - q * 2 ^ (23 - e)) * 2 ^ (e - 23) := by
    simp only [fl32Pos]
    rw [← he_def, sub_mul, hy]
  have habs : |fl32Pos q - q| = |(rne (q * 2 ^ (23 - e)) : ℚ) - q * 2 ^ (23 - e)| * 2 ^ (e - 23) := by
    rw [hdiff, abs_mul, abs_of_pos (zpow_pos (by norm_num : (0:ℚ) < 2) (e - 23))]
  have hstep : (1/2 : ℚ) * 2 ^ (e - 23) ≤ q / 2 ^ 24 := by
    have h24 : (2 : ℚ) ^ (e - 24) ≤ q / 2 ^ 24 := by
      rw [le_div_iff₀ (by positivity : (0:ℚ) < 2 ^ 24)]
      calc (2 : ℚ) ^ (e - 24) * 2 ^ 24 = 2 ^ e := by
            rw [← zpow_natCast (2 : ℚ) 24, ← zpow_add₀ (two_ne_zero)]
            congr 1
            omega
        _ ≤ q := h2e
    rw [show e - 23 = (e - 24) + 1 from by omega, zpow_add_one₀ (two_ne_zero)]
    linarith
  rw [habs]
  exact le_trans (mul_le_mul_of_nonneg_right (abs_rne_sub_le _) (by positivity)) hstep

theorem convertFloat32ToInt16_eq_map (buffer : List ℚ) :
    convertFloat32ToInt16 buffer = buffer.map floatToInt16Elem := by
  apply List.ext_getElem
  · simp [convertFloat32ToInt16]
  · intro i h1 h2
    simp only [convertFloat32ToInt16, List.getElem_map, List.getElem_range, List.length_map,
      List.length_range] at h1 ⊢
    rw [List.getD_eq_getElem buffer 0 (by simpa using h1)]

/-! ### Round-trip of the PCM codec -/

theorem roundtrip_zero : floatToInt16Elem (int16ToFloat 0) = 0 := by
  norm_num [int16ToFloat, fl32, floatToInt16Elem, clamp, jsToInt16, ratTrunc, wrap16]

theorem roundtrip_neg {x : ℤ} (h1 : -32768 ≤ x) (h2 : x < 0) :
    floatToInt16Elem (int16ToFloat x) = x := by
  have hrepr : (x : ℚ) / 32768 = (x : ℚ) * 2 ^ (-15 : ℤ) := by
    have h15 : ((2 : ℚ) ^ (15 : ℤ)) = 32768 := by norm_num
    rw [zpow_neg, h15]
    ring
  have hq : int16ToFloat x = (x : ℚ) / 32768 := by
    rw [int16ToFloat, if_pos h2, hrepr, fl32_dyadic (by omega), ← hrepr]
  have hb1 : (-1 : ℚ) ≤ (x : ℚ) / 32768 := by
    rw [le_div_iff₀ (by norm_num : (0:ℚ) < 32768)]
    push_cast
    linarith [show (-32768 : ℚ) ≤ (x : ℚ) from by exact_mod_cast h1]
  have hneg : (x : ℚ) / 32768 < 0 := by
    apply div_neg_of_neg_of_pos _ (by norm_num)
    exact_mod_cast h2
  have hb2 : (x : ℚ) / 32768 ≤ 1 := le_trans (le_of_lt hneg) (by norm_num)
  have hscale : (x : ℚ) / 32768 * 32768 = (x : ℚ) := by field_simp
  rw [hq]
  simp only [floatToInt16Elem]
  rw [clamp_of_mem hb1 hb2, if_pos hneg, hscale, jsToInt16, ratTrunc_intCast,
    wrap16_id (by omega) (by omega)]

theorem roundtrip_max : floatToInt16Elem (int16ToFloat 32767) = 32767 := by
  have hone : int16ToFloat 32767 = 1 := by
    rw [int16ToFloat, if_neg (by norm_num)]
    have h1 : ((32767 : ℤ) : ℚ) / 32767 = ((1 : ℤ) : ℚ) * 2 ^ (0 : ℤ) := by norm_num
    rw [h1, fl32_dyadic (by norm_num)]
    norm_num
  rw [hone]
  norm_num [floatToInt16Elem, clamp, jsToInt16, ratTrunc, wrap16]

theorem roundtrip_pos {x : ℤ} (h1 : 1 ≤ x) (h2 : x ≤ 32766) :
    floatToInt16Elem (int16ToFloat x) = x ∨ floatToInt16Elem (int16ToFloat x) = x - 1 := by
  set q : ℚ := (x : ℚ) / 32767 with hq_def
  have hx0 : (0 : ℚ) < (x : ℚ) := by exact_mod_cast h1
  have hq0 : 0 < q := div_pos hx0 (by norm_num)
  have hdec : int16ToFloat x = fl32Pos q := by
    rw [int16ToFloat, if_neg (by omega : ¬ x < 0), ← hq_def, fl32, if_neg hq0.ne',
      if_pos hq0]
  set v := fl32Pos q with hv_def
  have hv0 : 0 ≤ v := fl32Pos_nonneg hq0
  have herr := abs_le.mp (fl32Pos_err hq0)
  have hqle : q ≤ 32766 / 32767 := by
    rw [hq_def, div_le_div_iff (by norm_num) (by norm_num)]
    push_cast
    linarith [show (x : ℚ) ≤ 32766 from by exact_mod_cast h2]
  have hv1 : v ≤ 1 := by
    have h := herr.2
    -- v ≤ q + q / 2^24 ≤ (32766/32767) * (1 + 1/2^24) ≤ 1
    linarith
  have hqx : q * 32767 = (x : ℚ) := by
    rw [hq_def]
    field_simp
  set z := v * 32767 with hz_def
  have hz0 : 0 ≤ z := mul_nonneg hv0 (by norm_num)
  have hzlo : (x : ℚ) - 1/2 < z := by
    have h := herr.1
    -- z - x = (v - q) * 32767 ≥ -(q/2^24) * 32767 = -(x/2^24) ≥ -32766/2^24 > -1/2
    have hexp : z - (x : ℚ) = (v - q) * 32767 := by
      rw [hz_def, sub_mul, hqx]
    nlinarith
  have hzhi : z < (x : ℚ) + 1/2 := by
    have h := herr.2
    have hexp : z - (x : ℚ) = (v - q) * 32767 := by
      rw [hz_def, sub_mul, hqx]
    nlinarith
  have hfloor : ⌊z⌋ = x ∨ ⌊z⌋ = x - 1 := by
    have hub : ⌊z⌋ < x + 1 := by
      rw [Int.floor_lt]
      push_cast
      linarith
    have hlb : x - 1 ≤ ⌊z⌋ := by
      rw [Int.le_floor]
      push_cast
      linarith
    omega
  rw [hdec]
  simp only [floatToInt16Elem]
  rw [clamp_of_mem (le_trans (by norm_num) hv0) hv1, if_neg (not_lt.mpr hv0), ← hz_def,
    jsToInt16, ratTrunc_nonneg_eq_floor hz0]
  rcases hfloor with hf | hf
  · left
    rw [hf, wrap16_id (by omega) (by omega)]
  · right
    rw [hf, wrap16_id (by omega) (by omega)]

theorem log_recip_32767 : Int.log 2 ((1 : ℚ) / 32767) = -15 := by
  apply int_log_eq_of_bracket (by norm_num) <;> norm_num

theorem fl32_recip_32767 : fl32 ((1 : ℚ) / 32767) = 32769 / 1073741824 := by
  rw [fl32]
  norm_num
  rw [fl32Pos, log_recip_32767]
  norm_num [rne]

theorem int16ToFloat_one : int16ToFloat 1 = 32769 / 1073741824 := by
  rw [int16ToFloat, if_neg (by norm_num)]
  push_cast
  exact fl32_recip_32767

theorem roundtrip_one_drops : floatToInt16Elem (int16ToFloat 1) = 0 := by
  rw [int16ToFloat_one]
  norm_num [floatToInt16Elem, clamp, jsToInt16, ratTrunc, wrap16]

theorem getD_map_of_lt {α β : Type} [Inhabited β] (f : α → β) (xs : List α) (a : α) (b : β)
    {i : ℕ} (hi : i < xs.length) : (xs.map f).getD i b = f (xs.getD i a) := by
  rw [List.getD_eq_getElem _ _ (by simpa using hi), List.getElem_map,
    List.getD_eq_getElem _ _ hi]

/-- C1 (counterexample): decoding the 16-bit sample 1 with the asymmetric
mapping and re-encoding it with `convertFloat32ToInt16` yields 0, not 1:
the float32 value nearest to 1/32767 is 32769/2^30, slightly small, so the
re-scaled product 32767 * (32769/2^30) = 1 - 2^-30 truncates to 0.  The
claimed bit-exact round-trip fails. -/
theorem C1_roundtrip_cex :
    convertFloat32ToInt16 (base64ToFloat32 [1]) = [0] ∧
    convertFloat32ToInt16 (base64ToFloat32 [1]) ≠ [1] := by
  have h2 : convertFloat32ToInt16 (base64ToFloat32 [1]) = [floatToInt16Elem (int16ToFloat 1)] := by
    rw [base64ToFloat32, convertFloat32ToInt16_eq_map]
    simp
  rw [h2, roundtrip_one_drops]
  exact ⟨rfl, by simp⟩

/-- C1 (amended): for every sequence of valid 16-bit samples, decoding with
the asymmetric mapping and re-encoding with `convertFloat32ToInt16`
preserves the length, reproduces every sample `x ≤ 0` and the sample 32767
bit-exactly, and reproduces every other sample within 1 (the re-encoded
value is `x` or `x - 1`; positive samples can be displaced one step toward
zero by the float32 rounding of `x / 32767` followed by the truncating
`Int16Array` store). -/
theorem C1_roundtrip_amended (xs : List ℤ)
    (hxs : ∀ x ∈ xs, -32768 ≤ x ∧ x ≤ 32767) : RoundTripNear xs := by
  have hmap : convertFloat32ToInt16 (base64ToFloat32 xs)
      = xs.map (fun x => floatToInt16Elem (int16ToFloat x)) := by
    rw [base64ToFloat32, convertFloat32ToInt16_eq_map, List.map_map]
    rfl
  constructor
  · rw [hmap]
    simp
  · intro i hi
    have hgd : (convertFloat32ToInt16 (base64ToFloat32 xs)).getD i 0
        = floatToInt16Elem (int16ToFloat (xs.getD i 0)) := by
      rw [hmap]
      exact getD_map_of_lt _ _ 0 0 hi
    have hmem : xs.getD i 0 ∈ xs := by
      rw [List.getD_eq_getElem _ _ hi]
      exact List.getElem_mem hi
    obtain ⟨hlo, hhi⟩ := hxs _ hmem
    rw [hgd]
    set x := xs.getD i 0 with hx_def
    have hexact : (x ≤ 0 ∨ x = 32767) → floatToInt16Elem (int16ToFloat x) = x := by
      rintro (hle | heq)
      · rcases eq_or_lt_of_le hle with heq0 | hltz
        · rw [heq0]
          exact roundtrip_zero
        · exact roundtrip_neg hlo hltz
      · rw [heq]
        exact roundtrip_max
    refine ⟨hexact, ?_⟩
    by_cases hcase : x ≤ 0 ∨ x = 32767
    · exact Or.inl (hexact hcase)
    · push_neg at hcase
      exact roundtrip_pos (by omega) (by omega)

/-- C1 (witness for the amended theorem): the sample sequence [5] is in
range, and it satisfies the amended round-trip property. -/
theorem C1_roundtrip_witness :
    (∀ x ∈ ([5] : List ℤ), -32768 ≤ x ∧ x ≤ 32767) ∧ RoundTripNear [5] :=
  ⟨by simp, C1_roundtrip_amended [5] (by simp)⟩

/-! ### C2: clamp, scale, and integer conversion of the encoder -/

theorem floatToInt16Elem_eq_trunc (x : ℚ) : floatToInt16Elem x = floatToInt16Trunc x := by
  simp only [floatToInt16Elem, floatToInt16Trunc, jsToInt16]
  have hs1 : clamp x ≤ 1 := clamp_le_one x
  have hs2 : -1 ≤ clamp x := neg_one_le_clamp x
  set s := clamp x
  split_ifs with h
  · have hq : s * 32768 < 0 := mul_neg_of_neg_of_pos h (by norm_num)
    have htr : ratTrunc (s * 32768) = -⌊-(s * 32768)⌋ := by
      rw [ratTrunc, if_neg (not_le.mpr hq)]
    have hfl0 : 0 ≤ ⌊-(s * 32768)⌋ := Int.floor_nonneg.mpr (by linarith)
    have hfl1 : ⌊-(s * 32768)⌋ ≤ 32768 := by
      have : -(s * 32768) ≤ ((32768 : ℤ) : ℚ) := by push_cast; nlinarith
      calc ⌊-(s * 32768)⌋ ≤ ⌊((32768 : ℤ) : ℚ)⌋ := Int.floor_le_floor this
        _ = 32768 := Int.floor_intCast _
    exact wrap16_id (by omega) (by omega)
  · push_neg at h
    have hq : 0 ≤ s * 32767 := mul_nonneg h (by norm_num)
    have htr : ratTrunc (s * 32767) = ⌊s * 32767⌋ := ratTrunc_nonneg_eq_floor hq
    have hfl0 : 0 ≤ ⌊s * 32767⌋ := Int.floor_nonneg.mpr hq
    have hfl1 : ⌊s * 32767⌋ ≤ 32767 := by
      have : s * 32767 ≤ ((32767 : ℤ) : ℚ) := by push_cast; nlinarith
      calc ⌊s * 32767⌋ ≤ ⌊((32767 : ℤ) : ℚ)⌋ := Int.floor_le_floor this
        _ = 32767 := Int.floor_intCast _
    exact wrap16_id (by omega) (by omega)

/-- C2 (counterexample): on the exactly representable input sample 0.5 the
encoder produces 16383 (truncation of 16383.5 toward zero by the
`Int16Array` store), while the claimed round-to-nearest contract would
produce `Math.round(16383.5) = 16384`. -/
theorem C2_encoder_cex :
    convertFloat32ToInt16 [(1 : ℚ)/2] = [16383] ∧
    floatToInt16Claimed ((1 : ℚ)/2) = 16384 ∧
    convertFloat32ToInt16 [(1 : ℚ)/2] ≠ [floatToInt16Claimed ((1 : ℚ)/2)] := by
  have hcode : convertFloat32ToInt16 [(1 : ℚ)/2] = [16383] := by
    rw [convertFloat32ToInt16_eq_map]
    simp only [List.map]
    norm_num [floatToInt16Elem, clamp, jsToInt16, ratTrunc, wrap16]
  have hclaim : floatToInt16Claimed ((1 : ℚ)/2) = 16384 := by
    norm_num [floatToInt16Claimed, clamp, jsRound]
  refine ⟨hcode, hclaim, ?_⟩
  rw [hcode, hclaim]
  simp

/-- C2 (amended): `convertFloat32ToInt16` converts element-wise by
clamping each sample to [-1, 1] and then *truncating* `s * 32768` (if the
clamped value is negative) or `s * 32767` (otherwise) toward zero — the
`Int16Array` store semantics — rather than rounding to the nearest
integer; the asymmetric scale factors are preserved exactly and the
modulo-2^16 wrap of the store never fires. -/
theorem C2_encoder_amended (buffer : List ℚ) :
    convertFloat32ToInt16 buffer = buffer.map floatToInt16Trunc := by
  rw [convertFloat32ToInt16_eq_map]
  exact List.map_congr_left (fun x _ => floatToInt16Elem_eq_trunc x)

/-! ### C3: the resampler carry across a split -/

theorem resampleLinear_step (cd : List ℚ) (rho residue : ℚ) (h1 : 0 < rho)
    (h2 : residue < cd.length) :
    resampleLinear cd rho residue =
      (lerpAt cd residue :: (resampleLinear cd rho (residue + rho)).1,
       (resampleLinear cd rho (residue + rho)).2) := by
  rw [resampleLinear]
  rw [dif_pos ⟨h1, h2⟩]

theorem resampleLinear_stop (cd : List ℚ) (rho residue : ℚ)
    (h : ¬ (0 < rho ∧ residue < (cd.length : ℚ))) :
    resampleLinear cd rho residue = ([], residue - cd.length) := by
  rw [resampleLinear]
  rw [dif_neg h]

theorem outCount_shift (len : ℕ) (rho residue : ℚ) (hr : 0 < rho) {n : ℕ}
    (hn : outCount len rho residue = n + 1) :
    outCount len rho (residue + rho) = n := by
  have hceil : ⌈((len : ℚ) - residue) / rho⌉ = (n : ℤ) + 1 := by
    unfold outCount at hn
    omega
  unfold outCount
  have key : ((len : ℚ) - (residue + rho)) / rho = ((len : ℚ) - residue) / rho - 1 := by
    field_simp
    ring
  rw [key, Int.ceil_sub_one, hceil]
  omega

theorem outCount_pos_lt (len : ℕ) (rho residue : ℚ) (hr : 0 < rho) {n : ℕ}
    (hn : outCount len rho residue = n + 1) : residue < (len : ℚ) := by
  by_contra hge
  push_neg at hge
  have hnp : ((len : ℚ) - residue) / rho ≤ 0 := by
    apply div_nonpos_of_nonpos_of_nonneg (by linarith) (le_of_lt hr)
  have hc : ⌈((len : ℚ) - residue) / rho⌉ ≤ 0 := by
    rw [Int.ceil_le]
    exact_mod_cast hnp
  unfold outCount at hn
  omega

theorem resampleLinear_closed (channelData : List ℚ) (rho : ℚ) (hr : 0 < rho) :
    ∀ (n : ℕ) (residue : ℚ), outCount channelData.length rho residue = n →
    resampleLinear channelData rho residue =
      ((List.range n).map (fun k : ℕ => lerpAt channelData (residue + (k : ℚ) * rho)),
        residue + n * rho - channelData.length) := by
  intro n
  induction n with
  | zero =>
    intro residue hn
    have hle : ¬ (residue < (channelData.length : ℚ)) := by
      intro hlt
      have hpos : 0 < ⌈((channelData.length : ℚ) - residue) / rho⌉ :=
        Int.ceil_pos.mpr (div_pos (by linarith) hr)
      unfold outCount at hn
      omega
    rw [resampleLinear_stop _ _ _ (by tauto)]
    simp
  | succ n ih =>
    intro residue hn
    have hlt : residue < (channelData.length : ℚ) := outCount_pos_lt _ _ _ hr hn
    have hnext : outCount channelData.length rho (residue + rho) = n :=
      outCount_shift _ _ _ hr hn
    rw [resampleLinear_step _ _ _ hr hlt, ih _ hnext, List.range_succ_eq_map]
    simp only [List.map_cons, List.map_map, Prod.mk.injEq, List.cons.injEq]
    refine ⟨⟨?_, ?_⟩, ?_⟩
    · congr 1
      push_cast
      ring
    · apply List.map_congr_left
      intro a _
      simp only [Function.comp_apply]
      congr 1
      push_cast
      ring
    · push_cast
      ring

theorem getD_range_map (f : ℕ → ℚ) (n k : ℕ) (h : k < n) :
    ((List.range n).map f).getD k 0 = f k := by
  rw [List.getD_eq_getElem _ _ (by simpa using h), List.getElem_map, List.getElem_range]

theorem pos_lt_of_lt_outCount {len : ℕ} {rho r0 : ℚ} (hr : 0 < rho) {k : ℕ}
    (hk : k < outCount len rho r0) : r0 + (k : ℚ) * rho < len := by
  unfold outCount at hk
  have hkc : (k : ℤ) + 1 ≤ ⌈((len : ℚ) - r0) / rho⌉ := by omega
  have h2 : ((k : ℚ) + 1) ≤ (⌈((len : ℚ) - r0) / rho⌉ : ℚ) := by exact_mod_cast hkc
  have h3 : (⌈((len : ℚ) - r0) / rho⌉ : ℚ) < ((len : ℚ) - r0) / rho + 1 :=
    Int.ceil_lt_add_one _
  have h4 : (k : ℚ) < ((len : ℚ) - r0) / rho := by linarith
  rw [lt_div_iff₀ hr] at h4
  linarith

theorem le_pos_of_outCount_le {len : ℕ} {rho r0 : ℚ} (hr : 0 < rho) {k : ℕ}
    (hk : outCount len rho r0 ≤ k) : (len : ℚ) ≤ r0 + (k : ℚ) * rho := by
  unfold outCount at hk
  have hce : ⌈((len : ℚ) - r0) / rho⌉ ≤ (k : ℤ) := by omega
  have h1 : ((len : ℚ) - r0) / rho ≤ (k : ℚ) :=
    le_trans (Int.le_ceil _) (by exact_mod_cast hce)
  rw [div_le_iff₀ hr] at h1
  linarith

theorem outCount_add (LA LB : ℕ) (rho r0 : ℚ) (hr : 0 < rho) :
    outCount LA rho r0
      + outCount LB rho (r0 + (outCount LA rho r0 : ℚ) * rho - LA)
      = outCount (LA + LB) rho r0 := by
  set n1 := outCount LA rho r0 with hn1_def
  have hcA : n1 = (⌈((LA : ℚ) - r0) / rho⌉).toNat := rfl
  have harg : ((LB : ℚ) - (r0 + (n1 : ℚ) * rho - LA)) / rho
      = ((LA : ℚ) + LB - r0) / rho - ((n1 : ℤ) : ℚ) := by
    push_cast
    field_simp
    ring
  have hc2 : outCount LB rho (r0 + (n1 : ℚ) * rho - LA)
      = (⌈((LA : ℚ) + LB - r0) / rho⌉ - (n1 : ℤ)).toNat := by
    unfold outCount
    rw [harg, Int.ceil_sub_int]
  have hAC : ⌈((LA : ℚ) - r0) / rho⌉ ≤ ⌈((LA : ℚ) + LB - r0) / rho⌉ := by
    apply Int.ceil_le_ceil
    apply div_le_div_of_nonneg_right _ hr.le
    have : (0 : ℚ) ≤ (LB : ℚ) := Nat.cast_nonneg LB
    linarith
  have htot : outCount (LA + LB) rho r0 = (⌈((LA : ℚ) + LB - r0) / rho⌉).toNat := by
    unfold outCount
    congr 2
    push_cast
    ring
  rw [hc2, htot, hcA]
  omega

theorem lerpAt_append_left (A B : List ℚ) (p : ℚ) (h0 : 0 ≤ p)
    (hp : p < (A.length : ℚ))
    (hcond : ⌊p⌋ + 1 < (A.length : ℤ) ∨ p = ⌊p⌋) :
    lerpAt (A ++ B) p = lerpAt A p := by
  have hf0 : 0 ≤ ⌊p⌋ := Int.floor_nonneg.mpr h0
  have hfA : ⌊p⌋ < (A.length : ℤ) := by
    rw [Int.floor_lt]
    exact_mod_cast hp
  have hiA : (⌊p⌋).toNat < A.length := by omega
  simp only [lerpAt, List.length_append]
  rw [List.getD_append _ _ _ _ hiA]
  rcases hcond with hc | hc
  · have hi1 : (⌊p⌋).toNat + 1 < A.length := by omega
    rw [if_pos hi1, if_pos (by omega), List.getD_append _ _ _ _ hi1]
  · have hdec : p - (⌊p⌋ : ℚ) = 0 := by
      rw [← hc]
      ring
    rw [hdec]
    ring

theorem lerpAt_append_right (A B : List ℚ) (p : ℚ) (hp : (A.length : ℚ) ≤ p) :
    lerpAt (A ++ B) p = lerpAt B (p - A.length) := by
  have hfA : (A.length : ℤ) ≤ ⌊p⌋ := by
    rw [Int.le_floor]
    exact_mod_cast hp
  have hf0 : 0 ≤ ⌊p⌋ := le_trans (by positivity) hfA
  have hfl : ⌊p - (A.length : ℚ)⌋ = ⌊p⌋ - (A.length : ℤ) := by
    rw [show ((A.length : ℚ)) = (((A.length : ℤ)) : ℚ) from by push_cast; rfl,
      Int.floor_sub_int]
  have hiv : (⌊p - (A.length : ℚ)⌋).toNat = (⌊p⌋).toNat - A.length := by
    rw [hfl]
    omega
  have hile : A.length ≤ (⌊p⌋).toNat := by omega
  have hile1 : A.length ≤ (⌊p⌋).toNat + 1 := by omega
  have hdec : p - (A.length : ℚ) - (⌊p - (A.length : ℚ)⌋ : ℚ) = p - (⌊p⌋ : ℚ) := by
    rw [hfl]
    push_cast
    ring
  simp only [lerpAt, List.length_append]
  rw [hiv, hdec, List.getD_append_right _ _ _ _ hile,
    List.getD_append_right _ _ _ _ hile1,
    show (⌊p⌋).toNat + 1 - A.length = (⌊p⌋).toNat - A.length + 1 from by omega]
  have hiff : ((⌊p⌋).toNat + 1 < A.length + B.length)
      ↔ ((⌊p⌋).toNat - A.length + 1 < B.length) := by omega
  simp only [hiff]

/-- C3 (amended): splitting the input at an arbitrary boundary with the
carry threaded between calls preserves the number of output samples and
the final carry, and reproduces the one-shot output at every index except
possibly one whose input position straddles the boundary fractionally. -/
theorem C3_split_amended (A B : List ℚ) (rho r0 : ℚ) (hr : 0 < rho)
    (h0 : 0 ≤ r0) : SplitAgrees A B rho r0 := by
  have hA := resampleLinear_closed A rho hr (outCount A.length rho r0) r0 rfl
  set n1 := outCount A.length rho r0 with hn1_def
  set r1 : ℚ := r0 + (n1 : ℚ) * rho - A.length with hr1_def
  have hB := resampleLinear_closed B rho hr (outCount B.length rho r1) r1 rfl
  set n2 := outCount B.length rho r1 with hn2_def
  have hcnt : n1 + n2 = outCount (A.length + B.length) rho r0 := by
    rw [hn2_def, hr1_def, hn1_def]
    exact outCount_add A.length B.length rho r0 hr
  have hlenAB : (A ++ B).length = A.length + B.length := List.length_append A B
  have hC := resampleLinear_closed (A ++ B) rho hr (n1 + n2) r0 (by rw [hlenAB, ← hcnt])
  unfold SplitAgrees
  rw [hA]
  simp only []
  rw [hB, hC]
  simp only []
  refine ⟨by simp, ?_, ?_⟩
  · push_cast
    rw [hlenAB]
    push_cast
    ring
  · intro k hk hcond
    have hk2 : k < n1 + n2 := by simpa using hk
    have hp0 : 0 ≤ r0 + (k : ℚ) * rho := by positivity
    by_cases hkn1 : k < n1
    · have hplt : r0 + (k : ℚ) * rho < (A.length : ℚ) := by
        rw [hn1_def] at hkn1
        exact pos_lt_of_lt_outCount hr hkn1
      have hcond2 : ⌊r0 + (k : ℚ) * rho⌋ + 1 < (A.length : ℤ) ∨
          r0 + (k : ℚ) * rho = (⌊r0 + (k : ℚ) * rho⌋ : ℚ) := by
        rcases hcond with h | h | h
        · exact Or.inl h
        · exact Or.inr h
        · linarith
      rw [List.getD_append _ _ _ _ (by simpa using hkn1)]
      rw [getD_range_map _ _ _ (by simpa using hkn1), getD_range_map _ _ _ hk2]
      exact (lerpAt_append_left A B _ hp0 hplt hcond2).symm
    · push_neg at hkn1
      have hple : (A.length : ℚ) ≤ r0 + (k : ℚ) * rho := by
        rw [hn1_def] at hkn1
        exact le_pos_of_outCount_le hr hkn1
      rw [List.getD_append_right _ _ _ _ (by simpa using hkn1)]
      rw [List.length_map, List.length_range]
      rw [getD_range_map _ _ _ (by omega), getD_range_map _ _ _ hk2]
      rw [lerpAt_append_right A B _ hple]
      congr 1
      rw [hr1_def]
      push_cast [Nat.cast_sub hkn1]
      ring

theorem lerp_02_at_zero : lerpAt [0, 2] 0 = 0 := by
  norm_num [lerpAt]

theorem lerp_02_at_three_halves : lerpAt [0, 2] (3/2) = 2 := by
  have hf : ⌊(3/2 : ℚ)⌋ = 1 := by norm_num
  norm_num [lerpAt, hf]

theorem lerp_024_at_zero : lerpAt [0, 2, 4] 0 = 0 := by
  norm_num [lerpAt]

theorem lerp_024_at_three_halves : lerpAt [0, 2, 4] (3/2) = 3 := by
  have hf : ⌊(3/2 : ℚ)⌋ = 1 := by norm_num
  norm_num [lerpAt, hf]

theorem resample_A_eval : resampleLinear [0, 2] (3/2) 0 = ([0, 2], 1) := by
  have h1 := resampleLinear_step [0, 2] (3/2) 0 (by norm_num) (by norm_num)
  have h2 := resampleLinear_step [0, 2] (3/2) (0 + 3/2) (by norm_num) (by norm_num)
  have h3 := resampleLinear_stop [0, 2] (3/2) (0 + 3/2 + 3/2) (by norm_num)
  rw [h1, h2, h3]
  norm_num [lerp_02_at_zero]
  have := lerp_02_at_three_halves
  norm_num at this ⊢
  exact this

theorem resample_B_eval : resampleLinear [4] (3/2) 1 = ([], 0) := by
  have h := resampleLinear_stop [4] (3/2) 1 (by norm_num)
  rw [h]
  norm_num

theorem resample_AB_eval : resampleLinear ([0, 2] ++ [4]) (3/2) 0 = ([0, 3], 0) := by
  have hl : ([0, 2] ++ [4] : List ℚ) = [0, 2, 4] := rfl
  rw [hl]
  have h1 := resampleLinear_step [0, 2, 4] (3/2) 0 (by norm_num) (by norm_num)
  have h2 := resampleLinear_step [0, 2, 4] (3/2) (0 + 3/2) (by norm_num) (by norm_num)
  have h3 := resampleLinear_stop [0, 2, 4] (3/2) (0 + 3/2 + 3/2) (by norm_num)
  rw [h1, h2, h3]
  norm_num [lerp_024_at_zero]
  have := lerp_024_at_three_halves
  norm_num at this ⊢
  exact this

/-- C3 (counterexample): with downsampling ratio 3/2 (for example a
24000 Hz capture resampled to 16000 Hz), feeding the signal 0, 2, 4 split
as [0, 2] then [4] with the carry threaded between the calls produces the
outputs [0, 2], while feeding the concatenation in one call produces
[0, 3]: the second output position 1.5 straddles the split boundary, and
the split run clamps the right interpolation neighbour to the last sample
of the first buffer.  The outputs are not sample-for-sample identical. -/
theorem C3_split_cex :
    ((resampleLinear [0, 2] (3/2) 0).1
        ++ (resampleLinear [4] (3/2) (resampleLinear [0, 2] (3/2) 0).2).1)
      = [0, 2] ∧
    (resampleLinear ([0, 2] ++ [4]) (3/2) 0).1 = [0, 3] ∧
    ((resampleLinear [0, 2] (3/2) 0).1
        ++ (resampleLinear [4] (3/2) (resampleLinear [0, 2] (3/2) 0).2).1)
      ≠ (resampleLinear ([0, 2] ++ [4]) (3/2) 0).1 := by
  rw [resample_A_eval]
  simp only [resample_B_eval, resample_AB_eval]
  norm_num

/-- C3 (witness for the amended theorem): the boundary-splitting property
holds at the concrete split [0, 2] / [4] with ratio 3/2 and carry 0. -/
theorem C3_split_witness :
    (0 : ℚ) < 3/2 ∧ (0 : ℚ) ≤ 0 ∧ SplitAgrees [0, 2] [4] (3/2) 0 :=
  ⟨by norm_num, le_refl 0, C3_split_amended [0, 2] [4] (3/2) 0 (by norm_num) (le_refl 0)⟩

/-! ### C4, C5: the playback scheduler -/

theorem schedStarts_no_reset (now : ℚ) :
    ∀ (ds : List ℚ) (st : ℚ), now ≤ st → (∀ d ∈ ds, 0 ≤ d) →
    (schedStarts now st ds).length = ds.length ∧
    (ds ≠ [] → (schedStarts now st ds).getD 0 0 = st) ∧
    ∀ i, i + 1 < ds.length →
      (schedStarts now st ds).getD (i + 1) 0
        = (schedStarts now st ds).getD i 0 + ds.getD i 0 := by
  intro ds
  induction ds with
  | nil =>
    intro st hst hds
    refine ⟨rfl, by simp, ?_⟩
    intro i hi
    simp at hi
  | cons d ds ih =>
    intro st hst hds
    have hd0 : 0 ≤ d := hds d (by simp)
    have hstep : scheduleAudioChunk now d st = (st, st + d) := by
      simp only [scheduleAudioChunk]
      rw [if_neg (not_lt.mpr hst)]
    have hst' : now ≤ st + d := by linarith
    have hds' : ∀ x ∈ ds, 0 ≤ x := fun x hx => hds x (by simp [hx])
    obtain ⟨ihlen, ihhead, ihstep⟩ := ih (st + d) hst' hds'
    have hunf : schedStarts now st (d :: ds) = st :: schedStarts now (st + d) ds := by
      simp only [schedStarts, hstep]
    refine ⟨by simp [hunf, ihlen], by simp [hunf], ?_⟩
    intro i hi
    match i with
    | 0 =>
      simp only [hunf, List.getD_cons_succ, List.getD_cons_zero]
      cases ds with
      | nil => simp at hi
      | cons e es =>
        rw [ihhead (by simp)]
    | Nat.succ j =>
      simp only [hunf, List.getD_cons_succ]
      exact ihstep j (by simpa using hi)

/-- C4: the playback scheduling rule.  `scheduleAudioChunk` resets a stale
`nextStartTime` to `now + 1/20` (the 50 ms lookahead), otherwise leaves it;
the unit starts exactly at the (possibly reset) `nextStartTime`, which is
then advanced by the duration; `playAudio` advances its `nextStartTime` by
the duration from the scheduled start in the same way; and back-to-back
enqueues of nonnegative durations at one clock time are scheduled
contiguously, with no gaps and no overlap. -/
theorem C4_scheduling_rule (now st0 duration : ℚ) (ds : List ℚ)
    (hpast : st0 < now) (hds : ∀ d ∈ ds, 0 ≤ d) :
    (scheduleAudioChunk now duration st0).1 = now + 1/20 ∧
    (∀ st : ℚ, now ≤ st → (scheduleAudioChunk now duration st).1 = st) ∧
    (∀ st : ℚ, (scheduleAudioChunk now duration st).2
        = (scheduleAudioChunk now duration st).1 + duration) ∧
    (∀ (s : SchedulerState) (handle : ℕ),
      (playAudio now duration handle s).2.nextStartTime
        = (playAudio now duration handle s).1 + duration) ∧
    GaplessSchedule now st0 ds := by
  refine ⟨?_, ?_, ?_, ?_, ?_⟩
  · simp only [scheduleAudioChunk]
    rw [if_pos hpast]
  · intro st hst
    simp only [scheduleAudioChunk]
    rw [if_neg (not_lt.mpr hst)]
  · intro st
    simp only [scheduleAudioChunk]
  · intro s handle
    simp only [playAudio]
  · unfold GaplessSchedule
    cases ds with
    | nil => refine ⟨rfl, by simp, by intro i hi; simp at hi⟩
    | cons d ds =>
      have hd0 : 0 ≤ d := hds d (by simp)
      have hds' : ∀ x ∈ ds, 0 ≤ x := fun x hx => hds x (by simp [hx])
      have hstep : scheduleAudioChunk now d st0 = (now + 1/20, now + 1/20 + d) := by
        simp only [scheduleAudioChunk]
        rw [if_pos hpast]
      have hst' : now ≤ now + 1/20 + d := by linarith
      obtain ⟨ihlen, ihhead, ihstep⟩ := schedStarts_no_reset now ds (now + 1/20 + d) hst' hds'
      have hunf : schedStarts now st0 (d :: ds)
          = (now + 1/20) :: schedStarts now (now + 1/20 + d) ds := by
        simp only [schedStarts, hstep]
      refine ⟨by rw [hunf]; simp only [List.length_cons]; omega, by simp [hunf], ?_⟩
      intro i hi
      match i with
      | 0 =>
        simp only [hunf, List.getD_cons_succ, List.getD_cons_zero]
        cases ds with
        | nil => simp at hi
        | cons e es =>
          rw [ihhead (by simp)]
      | Nat.succ j =>
        simp only [hunf, List.getD_cons_succ]
        exact ihstep j (by simpa using hi)

/-- C4 (witness): with a stale `nextStartTime = 0`, clock time 1 and two
units of durations 1 and 2, the scheduling rule and gapless property hold
concretely. -/
theorem C4_scheduling_witness :
    (0 : ℚ) < 1 ∧ (∀ d ∈ ([1, 2] : List ℚ), 0 ≤ d) ∧
    ((scheduleAudioChunk 1 5 0).1 = 1 + 1/20 ∧
      (∀ st : ℚ, (1 : ℚ) ≤ st → (scheduleAudioChunk 1 5 st).1 = st) ∧
      (∀ st : ℚ, (scheduleAudioChunk 1 5 st).2
          = (scheduleAudioChunk 1 5 st).1 + 5) ∧
      (∀ (s : SchedulerState) (handle : ℕ),
        (playAudio 1 5 handle s).2.nextStartTime
          = (playAudio 1 5 handle s).1 + 5) ∧
      GaplessSchedule 1 0 [1, 2]) :=
  ⟨by norm_num, by norm_num,
    C4_scheduling_rule 1 0 5 [1, 2] (by norm_num) (by norm_num)⟩

/-- C5: the barge-in primitive.  `stopAudioPlayback` (with a live audio
context) stops exactly the previously active units, leaves the active set
empty, resets `nextStartTime` to the current playback-clock time, and a
subsequent `playAudio` enqueue at that same time schedules its unit to
start immediately (at `now`). -/
theorem C5_cancel_all (ctxLive : Bool) (now : ℚ) (s : SchedulerState)
    (hctx : ctxLive = true) :
    (stopAudioPlayback ctxLive now s).2 = s.active ∧
    (stopAudioPlayback ctxLive now s).1.active = [] ∧
    (stopAudioPlayback ctxLive now s).1.nextStartTime = now ∧
    ∀ (duration : ℚ) (handle : ℕ),
      (playAudio now duration handle (stopAudioPlayback ctxLive now s).1).1 = now := by
  subst hctx
  refine ⟨rfl, rfl, rfl, ?_⟩
  intro duration handle
  simp [playAudio, stopAudioPlayback]

/-- C5 (witness): cancelling a state with two queued units at clock time 7
empties the active set, reports both stops, resets the clock, and lets the
next enqueue start at 7. -/
theorem C5_cancel_all_witness :
    (true : Bool) = true ∧
    ((stopAudioPlayback true 7 ⟨3, [10, 11]⟩).2 = [10, 11] ∧
      (stopAudioPlayback true 7 ⟨3, [10, 11]⟩).1.active = [] ∧
      (stopAudioPlayback true 7 ⟨3, [10, 11]⟩).1.nextStartTime = 7 ∧
      ∀ (duration : ℚ) (handle : ℕ),
        (playAudio 7 duration handle (stopAudioPlayback true 7 ⟨3, [10, 11]⟩).1).1 = 7) :=
  ⟨rfl, C5_cancel_all true 7 ⟨3, [10, 11]⟩ rfl⟩

/-! ### C6: the outbound chunking invariant -/

theorem pushSamples_spec (C : ℕ) (hC : 0 < C) :
    ∀ (samples : List ℚ) (st : CaptureState), st.buf.length < C →
    (pushSamples C st samples).buf.length = (st.buf.length + samples.length) % C ∧
    (pushSamples C st samples).chunks.length
        = st.chunks.length + (st.buf.length + samples.length) / C ∧
    (pushSamples C st samples).buf.length < C ∧
    ∀ c ∈ (pushSamples C st samples).chunks, c ∈ st.chunks ∨ c.length = C := by
  intro samples
  induction samples with
  | nil =>
    intro st h
    simp only [pushSamples, List.foldl_nil, List.length_nil, Nat.add_zero]
    rw [Nat.mod_eq_of_lt h, Nat.div_eq_of_lt h]
    exact ⟨rfl, by omega, h, fun c hc => Or.inl hc⟩
  | cons s ss ih =>
    intro st h
    have hunf : pushSamples C st (s :: ss) = pushSamples C (pushSample C st s) ss := by
      simp [pushSamples]
    by_cases hflush : C ≤ st.buf.length + 1
    · have hbc : st.buf.length + 1 = C := by omega
      have hps : pushSample C st s
          = { buf := [], chunks := st.chunks ++ [flushChunk (st.buf ++ [s])] } := by
        simp only [pushSample]
        rw [if_pos (by simpa using hflush)]
      obtain ⟨ih1, ih2, ih3, ih4⟩ := ih (pushSample C st s) (by rw [hps]; simpa using hC)
      rw [hunf]
      refine ⟨?_, ?_, ih3, ?_⟩
      · rw [ih1, hps]
        simp only [List.length_nil, Nat.zero_add, List.length_cons]
        rw [show st.buf.length + (ss.length + 1) = C + ss.length from by omega,
          Nat.add_mod_left]
      · rw [ih2, hps]
        simp only [List.length_append, List.length_cons, List.length_nil,
          Nat.zero_add]
        rw [show st.buf.length + (ss.length + 1) = C + ss.length from by omega,
          Nat.add_div_left _ hC]
        generalize ss.length / C = q
        omega
      · intro c hc
        rcases ih4 c hc with hin | hlen
        · rw [hps] at hin
          simp only [List.mem_append, List.mem_singleton] at hin
          rcases hin with hin | rfl
          · exact Or.inl hin
          · right
            simp only [flushChunk, List.length_map, List.length_append,
              List.length_cons, List.length_nil]
            omega
        · exact Or.inr hlen
    · have hps : pushSample C st s = { buf := st.buf ++ [s], chunks := st.chunks } := by
        simp only [pushSample]
        rw [if_neg (by simpa using hflush)]
      obtain ⟨ih1, ih2, ih3, ih4⟩ := ih (pushSample C st s)
        (by rw [hps]; simp only [List.length_append, List.length_cons, List.length_nil]; omega)
      rw [hunf]
      refine ⟨?_, ?_, ih3, ?_⟩
      · rw [ih1, hps]
        simp only [List.length_append, List.length_cons, List.length_nil]
        congr 1
        omega
      · rw [ih2, hps]
        simp only [List.length_append, List.length_cons, List.length_nil]
        congr 2
        omega
      · intro c hc
        rcases ih4 c hc with hin | hlen
        · rw [hps] at hin
          exact Or.inl hin
        · exact Or.inr hlen

theorem processCallbacks_eq_join (C : ℕ) (callbacks : List (List ℚ)) :
    ∀ st, processCallbacks C st callbacks = pushSamples C st callbacks.join := by
  induction callbacks with
  | nil => intro st; simp [processCallbacks, pushSamples]
  | cons l ls ih =>
    intro st
    simp only [processCallbacks, List.foldl_cons, List.join_cons]
    rw [← processCallbacks]
    rw [ih, pushSamples, pushSamples, pushSamples, List.foldl_append]

/-- C6: the outbound chunk-size invariant.  From an empty accumulation
buffer, every chunk the capture pipeline emits has length exactly
`chunkSize`; over any sequence of callbacks the number of emitted chunks
is the total resampled sample count divided by `chunkSize`, the remainder
stays buffered (a short chunk is never emitted), and a total of exactly
`N * chunkSize` samples emits exactly `N` chunks leaving the buffer
empty. -/
theorem C6_chunk_invariant (chunkSize : ℕ) (callbacks : List (List ℚ))
    (hC : 0 < chunkSize) : ChunkInvariant chunkSize callbacks := by
  have hjoin : (callbacks.map List.length).sum = callbacks.join.length :=
    (List.length_join callbacks).symm
  have hspec := pushSamples_spec chunkSize hC callbacks.join ⟨[], []⟩ (by simpa using hC)
  obtain ⟨h1, h2, h3, h4⟩ := hspec
  unfold ChunkInvariant
  rw [processCallbacks_eq_join]
  simp only [List.length_nil, Nat.zero_add] at h1 h2 h3 h4 ⊢
  refine ⟨?_, ?_, ?_, ?_⟩
  · intro c hc
    rcases h4 c hc with hin | hlen
    · simp at hin
    · exact hlen
  · rw [h2, hjoin]
  · rw [h1, hjoin]
  · intro N hN
    constructor
    · rw [h2, ← hjoin, hN, Nat.mul_div_cancel _ hC]
    · have : callbacks.join.length % chunkSize = 0 := by
        rw [← hjoin, hN]
        simp [Nat.mul_mod_left]
      rw [← List.length_eq_zero]
      rw [h1, this]

/-- C6 (witness): with chunk size 2 and callbacks contributing 3 then 1
samples, the invariant holds concretely. -/
theorem C6_chunk_invariant_witness :
    0 < 2 ∧ ChunkInvariant 2 [[0, 0, 0], [0]] :=
  ⟨by norm_num, C6_chunk_invariant 2 [[0, 0, 0], [0]] (by norm_num)⟩

/-! ### C7: VAD energy homogeneity and threshold monotonicity -/

theorem sumsq_scale (A : List ℚ) :
    ((A.map (fun x => 2 * x)).map (fun x => x * x)).sum
      = 4 * ((A.map (fun x => x * x)).sum) := by
  induction A with
  | nil => simp
  | cons a as ih =>
    simp only [List.map_cons, List.sum_cons, ih]
    ring

/-- C7: the VAD energy is the root-mean-square of the frame; doubling
every sample of a nonempty frame doubles the energy exactly, and if the
energy of the original frame exceeds the threshold then the energy of the
doubled frame exceeds it as well. -/
theorem C7_vad_monotone (A : List ℚ) (threshold : ℝ) (hA : A ≠ []) :
    calculateRMS (A.map (fun x => 2 * x)) = 2 * calculateRMS A ∧
    (threshold < calculateRMS A →
      threshold < calculateRMS (A.map (fun x => 2 * x))) := by
  have hlen : (A.map (fun x => 2 * x)).length = A.length := List.length_map _ _
  have hscale : calculateRMS (A.map (fun x => 2 * x)) = 2 * calculateRMS A := by
    unfold calculateRMS
    rw [hlen, sumsq_scale]
    have harg : ((4 * ((A.map (fun x => x * x)).sum) / (A.length : ℚ) : ℚ) : ℝ)
        = 4 * (((A.map (fun x => x * x)).sum / (A.length : ℚ) : ℚ) : ℝ) := by
      push_cast
      ring
    rw [harg, Real.sqrt_mul (by norm_num : (0:ℝ) ≤ 4)]
    rw [show (4 : ℝ) = 2 ^ 2 from by norm_num, Real.sqrt_sq (by norm_num : (0:ℝ) ≤ 2)]
  refine ⟨hscale, ?_⟩
  intro ht
  have hnn : 0 ≤ calculateRMS A := Real.sqrt_nonneg _
  rw [hscale]
  linarith

/-- C7 (witness): the frame [1] is nonempty, doubling it doubles the RMS,
and threshold exceedance at 0 is preserved. -/
theorem C7_vad_monotone_witness :
    ([1] : List ℚ) ≠ [] ∧
    calculateRMS (([1] : List ℚ).map (fun x => 2 * x)) = 2 * calculateRMS [1] ∧
    ((0 : ℝ) < calculateRMS [1] →
      (0 : ℝ) < calculateRMS (([1] : List ℚ).map (fun x => 2 * x))) := by
  refine ⟨by simp, ?_, ?_⟩
  · exact (C7_vad_monotone [1] 0 (by simp)).1
  · exact (C7_vad_monotone [1] 0 (by simp)).2

/-! ### C8, C9, C10: the averaging downsampler -/

/-- C8: upsampling rejection.  Whenever the requested output rate exceeds
the input rate, `downsampleBuffer` raises the error and never returns a
result. -/
theorem C8_upsample_error (buffer : List ℚ) (sampleRate outSampleRate : ℚ)
    (h : sampleRate < outSampleRate) :
    downsampleBuffer buffer sampleRate outSampleRate
      = Except.error "downsampling rate show be smaller than original sample rate" := by
  unfold downsampleBuffer
  rw [if_neg (ne_of_gt h), if_pos h]

/-- C8 (witness): asking to resample from 16000 to 22000 fails with the
error. -/
theorem C8_upsample_error_witness :
    (16000 : ℚ) < 22000 ∧
    downsampleBuffer [1, 2] 16000 22000
      = Except.error "downsampling rate show be smaller than original sample rate" :=
  ⟨by norm_num, C8_upsample_error [1, 2] 16000 22000 (by norm_num)⟩

/-- C9: resampler identity.  When the output rate equals the input rate
(ratio 1), `downsampleBuffer` returns the input buffer unchanged, sample
for sample. -/
theorem C9_identity (buffer : List ℚ) (rate : ℚ) :
    downsampleBuffer buffer rate rate = Except.ok buffer := by
  unfold downsampleBuffer
  rw [if_pos rfl]

theorem downsampleLoop_closed (buffer : List ℚ) (rho : ℚ) :
    ∀ (remaining k : ℕ),
    downsampleLoop buffer rho remaining k ((jsRound ((k : ℚ) * rho)).toNat)
      = (List.range remaining).map (fun j : ℕ =>
          (dsWindow buffer rho (k + j)).sum / ((dsWindow buffer rho (k + j)).length : ℚ)) := by
  intro remaining
  induction remaining with
  | zero =>
    intro k
    simp [downsampleLoop]
  | succ r ih =>
    intro k
    have hcast : (((k + 1 : ℕ) : ℚ)) = (k : ℚ) + 1 := by push_cast; ring
    have htail := ih (k + 1)
    rw [hcast] at htail
    simp only [downsampleLoop]
    rw [htail, List.range_succ_eq_map]
    simp only [List.map_cons, List.map_map, List.cons.injEq]
    constructor
    · unfold dsWindow
      norm_num
    · apply List.map_congr_left
      intro a _
      simp only [Function.comp_apply]
      rw [show k + (a + 1) = k + 1 + a from by omega]

theorem jsRound_nonneg {q : ℚ} (h : 0 ≤ q) : 0 ≤ jsRound q := by
  unfold jsRound
  apply Int.floor_nonneg.mpr
  linarith

theorem jsRound_succ_ge {rho : ℚ} (hrho : 1 ≤ rho) (k : ℕ) :
    jsRound ((k : ℚ) * rho) + 1 ≤ jsRound (((k : ℚ) + 1) * rho) := by
  unfold jsRound
  have harg : (k : ℚ) * rho + 1/2 + 1 ≤ ((k : ℚ) + 1) * rho + 1/2 := by
    nlinarith
  calc ⌊(k : ℚ) * rho + 1/2⌋ + 1 = ⌊(k : ℚ) * rho + 1/2 + 1⌋ := by
        rw [Int.floor_add_one]
    _ ≤ ⌊((k : ℚ) + 1) * rho + 1/2⌋ := Int.floor_le_floor harg

theorem jsRound_lt_len {rho : ℚ} (hrho : 1 < rho) {len : ℕ} {k : ℕ}
    (hk : (k : ℤ) + 1 ≤ jsRound ((len : ℚ) / rho)) :
    jsRound ((k : ℚ) * rho) < (len : ℤ) := by
  have hrpos : (0 : ℚ) < rho := by linarith
  have h1 : ((k : ℚ) + 1) ≤ (jsRound ((len : ℚ) / rho) : ℚ) := by exact_mod_cast hk
  have h2 : (jsRound ((len : ℚ) / rho) : ℚ) ≤ (len : ℚ) / rho + 1/2 := by
    unfold jsRound
    exact Int.floor_le _
  have h3 : (k : ℚ) ≤ (len : ℚ) / rho - 1/2 := by linarith
  have h4 : (k : ℚ) * rho ≤ ((len : ℚ) / rho - 1/2) * rho := by
    apply mul_le_mul_of_nonneg_right h3 hrpos.le
  have h5 : ((len : ℚ) / rho - 1/2) * rho = (len : ℚ) - rho / 2 := by
    field_simp
    ring
  have h6 : (k : ℚ) * rho + 1/2 < (len : ℚ) := by
    rw [h5] at h4
    linarith
  unfold jsRound
  rw [Int.floor_lt]
  push_cast
  linarith

/-- C10: implicit safety of the averaging downsampler.  For a nonempty
buffer and positive rates with `outSampleRate < sampleRate`, the call
succeeds, the output length is
`round(buffer.length * outSampleRate / sampleRate)`, and every averaging
window holds at least one input sample, so `accum / count` never divides
by zero and each output element is a well-defined average. -/
theorem C10_downsample_safe (buffer : List ℚ) (sampleRate outSampleRate : ℚ)
    (hne : buffer ≠ []) (hpos : 0 < outSampleRate) (hlt : outSampleRate < sampleRate) :
    DownsampleSafe buffer sampleRate outSampleRate := by
  set rho := sampleRate / outSampleRate with hrho_def
  have hrho : 1 < rho := (one_lt_div hpos).mpr hlt
  have hneq : outSampleRate ≠ sampleRate := ne_of_lt hlt
  have hnotgt : ¬ (sampleRate < outSampleRate) := not_lt.mpr hlt.le
  have hargeq : (buffer.length : ℚ) / rho = (buffer.length : ℚ) * outSampleRate / sampleRate := by
    rw [hrho_def]
    rw [div_div_eq_mul_div]
  have hzero : ((jsRound ((0 : ℚ) * rho)).toNat) = 0 := by
    norm_num [jsRound]
  have hloop : downsampleLoop buffer rho ((jsRound ((buffer.length : ℚ) / rho)).toNat) 0 0
      = (List.range ((jsRound ((buffer.length : ℚ) / rho)).toNat)).map
          (fun j : ℕ => (dsWindow buffer rho j).sum / ((dsWindow buffer rho j).length : ℚ)) := by
    have h := downsampleLoop_closed buffer rho ((jsRound ((buffer.length : ℚ) / rho)).toNat) 0
    rw [show ((0 : ℕ) : ℚ) = 0 from rfl] at h
    rw [hzero] at h
    simpa using h
  have hout : downsampleBuffer buffer sampleRate outSampleRate
      = Except.ok ((List.range ((jsRound ((buffer.length : ℚ) / rho)).toNat)).map
          (fun j : ℕ => (dsWindow buffer rho j).sum / ((dsWindow buffer rho j).length : ℚ))) := by
    unfold downsampleBuffer
    rw [if_neg hneq, if_neg hnotgt]
    simp only []
    rw [← hrho_def, hloop]
  refine ⟨_, hout, ?_, ?_⟩
  · simp only [List.length_map, List.length_range]
    rw [hargeq]
  · intro k hk
    simp only [List.length_map, List.length_range] at hk
    have hwin : 1 ≤ (dsWindow buffer rho k).length := by
      have hk' : (k : ℤ) + 1 ≤ jsRound ((buffer.length : ℚ) / rho) := by
        have := hk
        omega
      have ha0 : 0 ≤ jsRound ((k : ℚ) * rho) :=
        jsRound_nonneg (by positivity)
      have hab : jsRound ((k : ℚ) * rho) + 1 ≤ jsRound (((k : ℚ) + 1) * rho) :=
        jsRound_succ_ge hrho.le k
      have halen : jsRound ((k : ℚ) * rho) < (buffer.length : ℤ) :=
        jsRound_lt_len hrho hk'
      unfold dsWindow
      rw [List.length_drop, List.length_take]
      omega
    refine ⟨hwin, ?_⟩
    rw [getD_range_map _ _ _ hk]

/-- C10 (witness): downsampling the nonempty buffer [1, 2, 3] from rate 2
to rate 1 is safe and produces windows of at least one sample. -/
theorem C10_downsample_safe_witness :
    ([1, 2, 3] : List ℚ) ≠ [] ∧ (0 : ℚ) < 1 ∧ (1 : ℚ) < 2 ∧
    DownsampleSafe [1, 2, 3] 2 1 :=
  ⟨by simp, by norm_num, by norm_num,
    C10_downsample_safe [1, 2, 3] 2 1 (by simp) (by norm_num) (by norm_num)⟩
